import Mathlib

/-!
Shallow embedding of the restricted Hartree-Fock SCF solver implemented in
the notebook blog_buildhf_part4.ipynb.  Machine floats are modelled by exact
rationals; the external dense eigensolver np.linalg.eigh is modelled as an
explicit function parameter (it is third-party library code, not code of this
repository), so every statement quantifies over the eigensolver where the
code calls it.  The Frobenius-norm convergence test norm(Dnew - Dold) < tol
is embedded as the equivalent squared comparison
sum of squares < tol * tol, which agrees with the source test for every
positive tolerance (the setting the spec requires).
-/

namespace HF

open Matrix

set_option maxRecDepth 100000

/-- Read-only inputs of the SCF loop, mirroring the variables the notebook
prepares before the while loop: the core Hamiltonian Hcore = Tmat + Vmat,
the two-electron tensor Vee, the orthogonalization matrix X, the electron
count nelec, and the loop parameters maxiter and conv_tol. -/
structure HFContext (n : ℕ) where
  Hcore : Matrix (Fin n) (Fin n) ℚ
  Vee : Fin n → Fin n → Fin n → Fin n → ℚ
  X : Matrix (Fin n) (Fin n) ℚ
  nelec : ℕ
  maxiter : ℕ
  tol : ℚ

instance (n : ℕ) : DecidableEq (Matrix (Fin n) (Fin n) ℚ) :=
  Matrix.decidableEq

/-- The mutable variables the notebook's while loop maintains and leaves in
scope when it ends: the density matrix, the previous density matrix, the
electronic energy, the Fock matrix, the MO coefficients, the orbital
energies, the iteration counter and the squared density-change norm. -/
structure SCFState (n : ℕ) where
  Dmat : Matrix (Fin n) (Fin n) ℚ
  Dmat_old : Matrix (Fin n) (Fin n) ℚ
  e_elec : ℚ
  Fmat : Matrix (Fin n) (Fin n) ℚ
  Cvec : Matrix (Fin n) (Fin n) ℚ
  mo_eigs : Fin n → ℚ
  iterstep : ℕ
  convSq : ℚ
  deriving DecidableEq

/-- Model of the external dense symmetric eigensolver np.linalg.eigh:
given a matrix it returns eigenvalues and an eigenvector matrix. -/
def EighFn (n : ℕ) : Type :=
  Matrix (Fin n) (Fin n) ℚ → (Fin n → ℚ) × Matrix (Fin n) (Fin n) ℚ

/-- Jmat from the source line
Jmat = np.einsum(kl, ijkl -> ij applied to Dmat and Vee):
the Coulomb contraction J i j = sum over k l of D k l * Vee i j k l. -/
def Jmat {n : ℕ} (ctx : HFContext n) (D : Matrix (Fin n) (Fin n) ℚ) :
    Matrix (Fin n) (Fin n) ℚ :=
  fun i j => ∑ k, ∑ l, D k l * ctx.Vee i j k l

/-- Kmat from the source line
Kmat = np.einsum(kl, ikjl -> ij applied to Dmat and Vee):
the exchange contraction K i j = sum over k l of D k l * Vee i k j l. -/
def Kmat {n : ℕ} (ctx : HFContext n) (D : Matrix (Fin n) (Fin n) ℚ) :
    Matrix (Fin n) (Fin n) ℚ :=
  fun i j => ∑ k, ∑ l, D k l * ctx.Vee i k j l

/-- Fock matrix from the source line Fmat = Hcore + 2*Jmat - Kmat. -/
def Fock {n : ℕ} (ctx : HFContext n) (D : Matrix (Fin n) (Fin n) ℚ) :
    Matrix (Fin n) (Fin n) ℚ :=
  ctx.Hcore + (2 : ℚ) • Jmat ctx D - Kmat ctx D

/-- Electronic energy from the source line
e_elec = np.sum(Dmat * (Hcore + Fmat)), with Fmat built from the same D. -/
def eElec {n : ℕ} (ctx : HFContext n) (D : Matrix (Fin n) (Fin n) ℚ) : ℚ :=
  ∑ i, ∑ j, D i j * (ctx.Hcore i j + Fock ctx D i j)

/-- Density-matrix accumulation from the source loop
for a in range(nelec//2): Dmat += outer(Cvec column a, Cvec column a):
D i j = sum over the first occ columns of C i a * C j a.  (The Python loop
indexes columns 0..occ-1 and would raise for occ > n; the embedding sums the
columns that exist, and the claims that depend on this carry occ ≤ n.) -/
def buildD {n : ℕ} (C : Matrix (Fin n) (Fin n) ℚ) (occ : ℕ) :
    Matrix (Fin n) (Fin n) ℚ :=
  fun i j => ∑ a, if a.val < occ then C i a * C j a else 0

/-- Squared Frobenius norm of the difference of two matrices; the source's
conv = np.linalg.norm(Dmat - Dmat_old) is its square root. -/
def convSqOf {n : ℕ} (A B : Matrix (Fin n) (Fin n) ℚ) : ℚ :=
  ∑ i, ∑ j, (A i j - B i j) ^ 2

/-- One pass of the notebook's while-loop body, in source order: build J, K
and the Fock matrix from the density matrix entering the pass, compute the
electronic energy from that same density, save the old density, transform
the Fock matrix to the orthonormal basis, diagonalize, transform the
coefficients back, rebuild the density from the nelec//2 lowest orbitals,
measure the density change and advance the iteration counter. -/
def scfStep {n : ℕ} (ctx : HFContext n) (eigh : EighFn n) (st : SCFState n) :
    SCFState n :=
  let F := Fock ctx st.Dmat
  let e := eElec ctx st.Dmat
  let Dold := st.Dmat
  let F2 := ctx.Xᵀ * F * ctx.X
  let p := eigh F2
  let C := ctx.X * p.2
  let Dnew := buildD C (ctx.nelec / 2)
  SCFState.mk Dnew Dold e F C p.1 (st.iterstep + 1) (convSqOf Dnew Dold)

/-- The notebook's while iterstep < maxiter loop with its break on
conv < conv_tol, embedded with a structural fuel argument; scfRun supplies
fuel = maxiter, which the guard makes exact (the guard, not the fuel,
decides every exit reachable from iterstep = 0). -/
def scfLoop {n : ℕ} (ctx : HFContext n) (eigh : EighFn n) :
    ℕ → SCFState n → SCFState n
  | 0, st => st
  | fuel + 1, st =>
    if st.iterstep < ctx.maxiter then
      if (scfStep ctx eigh st).convSq < ctx.tol * ctx.tol then
        scfStep ctx eigh st
      else
        scfLoop ctx eigh fuel (scfStep ctx eigh st)
    else st

/-- State before the loop, from the initial-guess cell: diagonalize the core
Hamiltonian in the orthonormal basis, back-transform the coefficients and
occupy the nelec//2 lowest orbitals; iterstep = 0 and conv = 1e0 as in the
source (convSq = 1); e_elec, Fmat and Dmat_old are not yet assigned in the
source before the first pass and are initialized to zero here. -/
def initState {n : ℕ} (ctx : HFContext n) (eigh : EighFn n) : SCFState n :=
  let H2 := ctx.Xᵀ * ctx.Hcore * ctx.X
  let p := eigh H2
  let C := ctx.X * p.2
  SCFState.mk (buildD C (ctx.nelec / 2)) 0 0 0 C p.1 0 1

/-- Whole solver: initial guess followed by the bounded SCF loop. -/
def scfRun {n : ℕ} (ctx : HFContext n) (eigh : EighFn n) : SCFState n :=
  scfLoop ctx eigh ctx.maxiter (initState ctx eigh)

/-- Orthogonalizer from the source line X = U / s**0.5: the eigenvector
matrix U with column j scaled by r j, where r models s**(-0.5) and is
characterized exactly by r j * r j * s j = 1. -/
def Xortho {n : ℕ} (U : Matrix (Fin n) (Fin n) ℚ) (r : Fin n → ℚ) :
    Matrix (Fin n) (Fin n) ℚ :=
  fun i j => U i j * r j

/-- Basis transformation into the orthonormal basis, from the source line
Fmat_ = np.dot(X.T, Fmat.dot(X)). -/
def toOrtho {n : ℕ} (X F : Matrix (Fin n) (Fin n) ℚ) :
    Matrix (Fin n) (Fin n) ℚ :=
  Xᵀ * F * X

/-- Back transformation described by the spec round-trip property: form
S * X * G * X.T * S, using X * X.T as the inverse overlap. -/
def fromOrtho {n : ℕ} (S X G : Matrix (Fin n) (Fin n) ℚ) :
    Matrix (Fin n) (Fin n) ℚ :=
  S * (X * G * Xᵀ) * S

/-- Energy formula of the later notebook revision, source line
e_elec = np.trace(np.dot(2*Hcore + 2*Jmat - Kmat, Dmat)). -/
def eElecTrace {n : ℕ} (Hc J K D : Matrix (Fin n) (Fin n) ℚ) : ℚ :=
  Matrix.trace (((2 : ℚ) • Hc + (2 : ℚ) • J - K) * D)

/-- Energy formula of the surfaced notebook revision, source line
e_elec = np.sum(Dmat * (Hcore + Fmat)) with Fmat = Hcore + 2*Jmat - Kmat. -/
def eElecSum {n : ℕ} (Hc J K D : Matrix (Fin n) (Fin n) ℚ) : ℚ :=
  ∑ i, ∑ j, D i j * (Hc i j + (Hc + (2 : ℚ) • J - K) i j)

/-- Sum of the occupied orbital eigenvalues held by a state, the naive
energy expression the notebook text warns against. -/
def occEigSum {n : ℕ} (ctx : HFContext n) (st : SCFState n) : ℚ :=
  ∑ a, if a.val < ctx.nelec / 2 then st.mo_eigs a else 0

/-- Context update helper changing only the electron count. -/
def setNelec {n : ℕ} (ctx : HFContext n) (m : ℕ) : HFContext n :=
  HFContext.mk ctx.Hcore ctx.Vee ctx.X m ctx.maxiter ctx.tol

/-- Concrete one-basis-function context whose SCF dynamics oscillate under
the eigensolver oscEigh: Hcore = 0, Vee constantly 1, X = 1, nelec = 2,
maxiter = 1, tol = 1/2. -/
def ctxOscA : HFContext 1 :=
  HFContext.mk 0 (fun _ _ _ _ => 1) 1 2 1 (1 / 2)

/-- Same context as ctxOscA with the loose tolerance 2. -/
def ctxOscB : HFContext 1 :=
  HFContext.mk 0 (fun _ _ _ _ => 1) 1 2 1 2

/-- Same context as ctxOscA with the odd electron count 3. -/
def ctxOsc3 : HFContext 1 :=
  HFContext.mk 0 (fun _ _ _ _ => 1) 1 3 1 (1 / 2)

/-- Eigensolver model that flips the one coefficient between 0 and 1,
making the ctxOscA dynamics oscillate with density change 1 each pass. -/
def oscEigh : EighFn 1 :=
  fun M => (fun _ => M 0 0, fun _ _ => 1 - M 0 0)

/-- Eigensolver model returning the constant eigenvalue 7, used to witness
that the recorded energy is not the occupied-eigenvalue sum. -/
def eighB : EighFn 1 :=
  fun M => (fun _ => 7, fun _ _ => 1 - M 0 0)

/-- Trivial one-basis-function context for witnesses: Hcore = 0, Vee = 0,
X = 1, nelec = 2, maxiter = 1, tol = 1. -/
def ctxTriv : HFContext 1 :=
  HFContext.mk 0 (fun _ _ _ _ => 0) 1 2 1 1

/-- Trivial eigensolver model returning eigenvalue 0 and the identity. -/
def eighTriv : EighFn 1 :=
  fun _ => (fun _ => 0, 1)

/-- Concrete 1 by 1 matrix used in the round-trip witness. -/
def Fw : Matrix (Fin 1) (Fin 1) ℚ :=
  fun _ _ => 3

/-- C2: for every density matrix D and constant integral inputs Hcore and
Vee, the Fock builder computes the Coulomb contraction
J i j = sum over k l of D k l * Vee i j k l, the exchange contraction
K i j = sum over k l of D k l * Vee i k j l, and returns
F = Hcore + 2 J - K; moreover every SCF pass stores exactly this Fock
matrix, built from the density entering the pass. -/
theorem fock_builder_formula :
    ∀ (n : ℕ) (ctx : HFContext n) (D : Matrix (Fin n) (Fin n) ℚ)
      (i j : Fin n),
      Jmat ctx D i j = (∑ k, ∑ l, D k l * ctx.Vee i j k l) ∧
      Kmat ctx D i j = (∑ k, ∑ l, D k l * ctx.Vee i k j l) ∧
      Fock ctx D i j =
        ctx.Hcore i j + 2 * (∑ k, ∑ l, D k l * ctx.Vee i j k l) -
          (∑ k, ∑ l, D k l * ctx.Vee i k j l) ∧
      ∀ (eigh : EighFn n) (st : SCFState n),
        (scfStep ctx eigh st).Fmat = Fock ctx st.Dmat := by
  intro n ctx D i j
  refine ⟨rfl, rfl, ?_, fun eigh st => rfl⟩
  simp [Fock, Jmat, Kmat, Matrix.add_apply, Matrix.sub_apply,
    Matrix.smul_apply, smul_eq_mul]

/-- C1: in every SCF pass the electronic energy is computed in the trace
form, summing D i j * (Hcore i j + F i j) over the density matrix entering
that pass (with F the Fock matrix built from that same density); at a
concrete input the recorded energy differs from the sum of the occupied
orbital eigenvalues, so the energy is not that naive expression. -/
theorem scf_energy_trace_form :
    (∀ (n : ℕ) (ctx : HFContext n) (eigh : EighFn n) (st : SCFState n),
      (scfStep ctx eigh st).e_elec =
        ∑ i, ∑ j, st.Dmat i j * (ctx.Hcore i j + Fock ctx st.Dmat i j)) ∧
    (scfStep ctxOscA eighB (initState ctxOscA eighB)).e_elec ≠
      occEigSum ctxOscA (scfStep ctxOscA eighB (initState ctxOscA eighB)) := by
  constructor
  · intro n ctx eigh st
    rfl
  · with_unfolding_all decide

theorem Xortho_eq_mul_diagonal {n : ℕ} (U : Matrix (Fin n) (Fin n) ℚ)
    (r : Fin n → ℚ) : Xortho U r = U * Matrix.diagonal r := by
  ext i j
  simp [Xortho, Matrix.mul_diagonal]

/-- C3: for every symmetric positive-definite overlap matrix S with
eigen-decomposition S = U diag s Uᵀ (U orthogonal, eigenvalues s), the
orthogonalizer output X = U diag(s^(-1/2)) - embedded with the scaling
factors r characterized by r j * r j * s j = 1 - satisfies Xᵀ S X = 1. -/
theorem orthogonalizer_identity :
    ∀ (n : ℕ) (S U : Matrix (Fin n) (Fin n) ℚ) (s r : Fin n → ℚ),
      Uᵀ * U = 1 →
      S = U * Matrix.diagonal s * Uᵀ →
      (∀ j, r j * r j * s j = 1) →
      (Xortho U r)ᵀ * S * Xortho U r = 1 := by
  intro n S U s r hU hS hr
  subst hS
  rw [Xortho_eq_mul_diagonal, Matrix.transpose_mul, Matrix.diagonal_transpose]
  have h1 : ∀ M : Matrix (Fin n) (Fin n) ℚ, Uᵀ * (U * M) = M := by
    intro M
    rw [← Matrix.mul_assoc, hU, Matrix.one_mul]
  calc
    Matrix.diagonal r * Uᵀ * (U * Matrix.diagonal s * Uᵀ) *
        (U * Matrix.diagonal r) =
        Matrix.diagonal r *
          (Uᵀ * (U * (Matrix.diagonal s * (Uᵀ * (U * Matrix.diagonal r))))) := by
      simp only [Matrix.mul_assoc]
    _ = Matrix.diagonal r * (Matrix.diagonal s * Matrix.diagonal r) := by
      rw [h1, h1]
    _ = Matrix.diagonal (fun j => r j * (s j * r j)) := by
      rw [Matrix.diagonal_mul_diagonal, Matrix.diagonal_mul_diagonal]
    _ = 1 := by
      have hfun : (fun j => r j * (s j * r j)) = fun _ : Fin n => (1 : ℚ) := by
        funext j
        calc
          r j * (s j * r j) = r j * r j * s j := by ring
          _ = 1 := hr j
      rw [hfun, Matrix.diagonal_one]

/-- C3 witness: the orthogonalizer contract instantiated at the concrete
one-dimensional input S = 1, U = 1, s = 1, r = 1. -/
theorem orthogonalizer_identity_witness :
    (Xortho (1 : Matrix (Fin 1) (Fin 1) ℚ) 1)ᵀ * 1 *
      Xortho (1 : Matrix (Fin 1) (Fin 1) ℚ) 1 = 1 :=
  orthogonalizer_identity 1 1 1 1 1 (by with_unfolding_all decide)
    (by with_unfolding_all decide) (by with_unfolding_all decide)

/-- C9: for every matrix F, transforming into the orthonormal basis as
Xᵀ F X and back by forming S X (Xᵀ F X) Xᵀ S reproduces F, whenever S is
symmetric and X satisfies the orthogonalizer contract Xᵀ S X = 1 (which
makes X Xᵀ the inverse of S). -/
theorem fock_roundtrip :
    ∀ (n : ℕ) (S X F : Matrix (Fin n) (Fin n) ℚ),
      S.IsSymm → Xᵀ * S * X = 1 → fromOrtho S X (toOrtho X F) = F := by
  intro n S X F hS hX
  have hS2 : Sᵀ = S := hS
  have h1 : X * (Xᵀ * S) = 1 := Matrix.mul_eq_one_comm.mp hX
  have h2 : X * Xᵀ * S = 1 := by
    rw [Matrix.mul_assoc]
    exact h1
  have h3 : S * (X * Xᵀ) = 1 := by
    have h4 := congrArg Matrix.transpose h2
    rwa [Matrix.transpose_mul, Matrix.transpose_mul,
      Matrix.transpose_transpose, Matrix.transpose_one, hS2] at h4
  have key : fromOrtho S X (toOrtho X F) =
      S * (X * Xᵀ) * F * (X * Xᵀ * S) := by
    unfold fromOrtho toOrtho
    simp only [Matrix.mul_assoc]
  rw [key, h3, h2, Matrix.one_mul, Matrix.mul_one]

/-- C9 witness: the round-trip applied to the concrete matrix Fw with the
one-dimensional overlap S = 1 and transform X = 1. -/
theorem fock_roundtrip_witness :
    fromOrtho (1 : Matrix (Fin 1) (Fin 1) ℚ) 1 (toOrtho 1 Fw) = Fw :=
  fock_roundtrip 1 1 1 Fw (by with_unfolding_all decide)
    (by with_unfolding_all decide)

theorem conjug_one {n : ℕ} (S X V : Matrix (Fin n) (Fin n) ℚ)
    (hX : Xᵀ * S * X = 1) (hV : Vᵀ * V = 1) :
    (X * V)ᵀ * S * (X * V) = 1 := by
  rw [Matrix.transpose_mul]
  calc
    Vᵀ * Xᵀ * S * (X * V) = Vᵀ * (Xᵀ * S * X) * V := by
      simp only [Matrix.mul_assoc]
    _ = Vᵀ * V := by rw [hX, Matrix.mul_one]
    _ = 1 := hV

theorem buildD_eq_diagonal_form {n : ℕ} (C : Matrix (Fin n) (Fin n) ℚ)
    (occ : ℕ) :
    buildD C occ =
      C * Matrix.diagonal (fun a : Fin n => if a.val < occ then (1 : ℚ) else 0)
        * Cᵀ := by
  ext i j
  rw [Matrix.mul_apply]
  simp only [buildD, Matrix.mul_diagonal, Matrix.transpose_apply]
  refine Finset.sum_congr rfl fun a _ => ?_
  by_cases h : a.val < occ
  · simp [h]
  · simp [h]

theorem filter_range_eq {occ n : ℕ} (hocc : occ ≤ n) :
    (Finset.range n).filter (fun m => m < occ) = Finset.range occ := by
  ext m
  simp only [Finset.mem_filter, Finset.mem_range]
  omega

theorem buildD_trace {n : ℕ} (C S : Matrix (Fin n) (Fin n) ℚ) (occ : ℕ)
    (hC : Cᵀ * S * C = 1) (hocc : occ ≤ n) :
    Matrix.trace (buildD C occ * S) = (occ : ℚ) := by
  rw [buildD_eq_diagonal_form]
  set d : Fin n → ℚ := fun a => if a.val < occ then (1 : ℚ) else 0 with hd
  have step1 : Matrix.trace (C * Matrix.diagonal d * Cᵀ * S) =
      Matrix.trace (Matrix.diagonal d * (Cᵀ * S * C)) := by
    calc
      Matrix.trace (C * Matrix.diagonal d * Cᵀ * S) =
          Matrix.trace ((C * Matrix.diagonal d) * (Cᵀ * S)) := by
        rw [Matrix.mul_assoc]
      _ = Matrix.trace ((Cᵀ * S) * (C * Matrix.diagonal d)) :=
        Matrix.trace_mul_comm _ _
      _ = Matrix.trace (Matrix.diagonal d * (Cᵀ * S * C)) := by
        rw [← Matrix.mul_assoc]
        exact Matrix.trace_mul_comm (Cᵀ * S * C) (Matrix.diagonal d)
  rw [step1, hC, Matrix.mul_one, Matrix.trace_diagonal]
  have step2 : (∑ a : Fin n, d a) =
      ∑ m ∈ Finset.range n, (if m < occ then (1 : ℚ) else 0) :=
    Fin.sum_univ_eq_sum_range (fun m => if m < occ then (1 : ℚ) else 0) n
  rw [step2, Finset.sum_boole, filter_range_eq hocc, Finset.card_range]

/-- C4: given Xᵀ S X = 1 and orthonormal eigenvector columns from the
eigensolver, the density matrix produced by the initial guess and the one
rebuilt by every SCF pass satisfy trace(D S) = nelec/2 (with nelec even and
nelec/2 at most the basis size). -/
theorem density_trace_is_half_electrons :
    ∀ (n : ℕ) (ctx : HFContext n) (eigh : EighFn n) (st : SCFState n)
      (S : Matrix (Fin n) (Fin n) ℚ),
      ctx.Xᵀ * S * ctx.X = 1 →
      2 ∣ ctx.nelec →
      ctx.nelec / 2 ≤ n →
      ((eigh (ctx.Xᵀ * ctx.Hcore * ctx.X)).2ᵀ *
          (eigh (ctx.Xᵀ * ctx.Hcore * ctx.X)).2 = 1 →
        Matrix.trace ((initState ctx eigh).Dmat * S) =
          ((ctx.nelec / 2 : ℕ) : ℚ)) ∧
      ((eigh (ctx.Xᵀ * Fock ctx st.Dmat * ctx.X)).2ᵀ *
          (eigh (ctx.Xᵀ * Fock ctx st.Dmat * ctx.X)).2 = 1 →
        Matrix.trace ((scfStep ctx eigh st).Dmat * S) =
          ((ctx.nelec / 2 : ℕ) : ℚ)) := by
  intro n ctx eigh st S hX hev hocc
  constructor
  · intro hV
    have hD : (initState ctx eigh).Dmat =
        buildD (ctx.X * (eigh (ctx.Xᵀ * ctx.Hcore * ctx.X)).2)
          (ctx.nelec / 2) := rfl
    rw [hD]
    exact buildD_trace _ S _ (conjug_one S ctx.X _ hX hV) hocc
  · intro hV
    have hD : (scfStep ctx eigh st).Dmat =
        buildD (ctx.X * (eigh (ctx.Xᵀ * Fock ctx st.Dmat * ctx.X)).2)
          (ctx.nelec / 2) := rfl
    rw [hD]
    exact buildD_trace _ S _ (conjug_one S ctx.X _ hX hV) hocc

/-- C4 witness: the density-trace invariant instantiated at the concrete
trivial one-dimensional context with overlap S = 1, for both the initial
guess and the density rebuilt by the first SCF pass. -/
theorem density_trace_is_half_electrons_witness :
    Matrix.trace ((initState ctxTriv eighTriv).Dmat * 1) =
        ((ctxTriv.nelec / 2 : ℕ) : ℚ) ∧
      Matrix.trace
          ((scfStep ctxTriv eighTriv (initState ctxTriv eighTriv)).Dmat * 1) =
        ((ctxTriv.nelec / 2 : ℕ) : ℚ) := by
  have h := density_trace_is_half_electrons 1 ctxTriv eighTriv
    (initState ctxTriv eighTriv) 1 (by with_unfolding_all decide)
    (by with_unfolding_all decide) (by with_unfolding_all decide)
  exact ⟨h.1 (by with_unfolding_all decide), h.2 (by with_unfolding_all decide)⟩

theorem scfStep_iterstep {n : ℕ} (ctx : HFContext n) (eigh : EighFn n)
    (st : SCFState n) : (scfStep ctx eigh st).iterstep = st.iterstep + 1 :=
  rfl

theorem scfLoop_iterstep_le {n : ℕ} (ctx : HFContext n) (eigh : EighFn n) :
    ∀ (fuel : ℕ) (st : SCFState n), st.iterstep ≤ ctx.maxiter →
      (scfLoop ctx eigh fuel st).iterstep ≤ ctx.maxiter := by
  intro fuel
  induction fuel with
  | zero =>
    intro st h
    simpa [scfLoop] using h
  | succ f ih =>
    intro st h
    simp only [scfLoop]
    split_ifs with h1 h2
    · rw [scfStep_iterstep]
      omega
    · exact ih _ (by rw [scfStep_iterstep]; omega)
    · exact h

/-- C7: for every positive maximum-iteration count and positive tolerance,
the SCF loop stops after at most maxiter passes of its body, whatever the
eigensolver does and whether or not the density change ever drops below the
tolerance (iterstep counts the executed passes). -/
theorem scf_iterations_bounded :
    ∀ (n : ℕ) (ctx : HFContext n) (eigh : EighFn n),
      0 < ctx.maxiter → 0 < ctx.tol →
      (scfRun ctx eigh).iterstep ≤ ctx.maxiter := by
  intro n ctx eigh hm ht
  exact scfLoop_iterstep_le ctx eigh ctx.maxiter (initState ctx eigh)
    (Nat.zero_le _)

/-- C7 witness: the iteration bound at the concrete trivial context, whose
maxiter = 1 and tol = 1 are positive. -/
theorem scf_iterations_bounded_witness :
    (scfRun ctxTriv eighTriv).iterstep ≤ ctxTriv.maxiter :=
  scf_iterations_bounded 1 ctxTriv eighTriv (by with_unfolding_all decide)
    (by with_unfolding_all decide)

theorem scfLoop_exit {n : ℕ} (ctx : HFContext n) (eigh : EighFn n) :
    ∀ (fuel : ℕ) (st : SCFState n), st.iterstep + fuel = ctx.maxiter →
      (scfLoop ctx eigh fuel st).convSq < ctx.tol * ctx.tol ∨
        (scfLoop ctx eigh fuel st).iterstep = ctx.maxiter := by
  intro fuel
  induction fuel with
  | zero =>
    intro st h
    right
    simpa [scfLoop] using h
  | succ f ih =>
    intro st h
    simp only [scfLoop]
    split_ifs with h1 h2
    · exact Or.inl h2
    · exact ih _ (by rw [scfStep_iterstep]; omega)
    · exact absurd h1 (by omega)

/-- C6 (amended): both ways out of the SCF loop are terminal and leave the
last computed energy, density, old density, Fock matrix, coefficients,
orbital energies, iteration count and density-change measure in the final
state, and every exit has either met the tolerance (squared density change
below tol squared) or used up exactly maxiter passes; but the code attaches
no terminal-state tag distinguishing the two. -/
theorem scf_exit_condition :
    ∀ (n : ℕ) (ctx : HFContext n) (eigh : EighFn n),
      (scfRun ctx eigh).convSq < ctx.tol * ctx.tol ∨
        (scfRun ctx eigh).iterstep = ctx.maxiter := by
  intro n ctx eigh
  exact scfLoop_exit ctx eigh ctx.maxiter (initState ctx eigh)
    (by simp [initState])

/-- C6 counterexample: a run that exhausts maxiter without meeting its
tolerance (ctxOscA, tol = 1/2) and a converged run (ctxOscB, tol = 2)
return byte-identical final states, so the code does not report the two
terminal outcomes distinctly - the non-converged result has exactly the
shape and content of the converged one. -/
theorem terminal_outcomes_same_shape_cex :
    scfRun ctxOscA oscEigh = scfRun ctxOscB oscEigh ∧
      ¬ (scfRun ctxOscA oscEigh).convSq < ctxOscA.tol * ctxOscA.tol ∧
      (scfRun ctxOscA oscEigh).iterstep = ctxOscA.maxiter ∧
      (scfRun ctxOscB oscEigh).convSq < ctxOscB.tol * ctxOscB.tol := by
  refine ⟨?_, ?_, ?_, ?_⟩ <;> with_unfolding_all decide

theorem scfLoop_energy_invariant {n : ℕ} (ctx : HFContext n)
    (eigh : EighFn n) :
    ∀ (fuel : ℕ) (st : SCFState n), st.e_elec = eElec ctx st.Dmat_old →
      (scfLoop ctx eigh fuel st).e_elec =
        eElec ctx (scfLoop ctx eigh fuel st).Dmat_old := by
  intro fuel
  induction fuel with
  | zero =>
    intro st h
    simpa [scfLoop] using h
  | succ f ih =>
    intro st h
    simp only [scfLoop]
    split_ifs with h1 h2
    · rfl
    · exact ih _ rfl
    · exact h

/-- C10: whenever at least one pass runs, the energy held at loop exit is
the trace-form energy of the previous density iterate Dmat_old, the density
that entered the last pass before being rebuilt; at the concrete
oscillating input this energy differs from the trace-form energy of the
final density the solver outputs. -/
theorem energy_corresponds_to_previous_density :
    (∀ (n : ℕ) (ctx : HFContext n) (eigh : EighFn n),
      0 < ctx.maxiter →
      (scfRun ctx eigh).e_elec = eElec ctx (scfRun ctx eigh).Dmat_old) ∧
    (scfRun ctxOscA oscEigh).e_elec ≠
      eElec ctxOscA (scfRun ctxOscA oscEigh).Dmat := by
  constructor
  · intro n ctx eigh hm
    obtain ⟨m, hm2⟩ : ∃ m, ctx.maxiter = m + 1 := ⟨ctx.maxiter - 1, by omega⟩
    unfold scfRun
    rw [hm2]
    simp only [scfLoop]
    rw [if_pos (by rw [show (initState ctx eigh).iterstep = 0 from rfl]; omega)]
    split_ifs with hc
    · rfl
    · exact scfLoop_energy_invariant ctx eigh m _ rfl
  · with_unfolding_all decide

/-- C10 witness: the exit-energy identity applied at the concrete
oscillating context, whose maxiter = 1 is positive. -/
theorem energy_corresponds_to_previous_density_witness :
    (scfRun ctxOscA oscEigh).e_elec =
      eElec ctxOscA (scfRun ctxOscA oscEigh).Dmat_old :=
  energy_corresponds_to_previous_density.1 1 ctxOscA oscEigh
    (by with_unfolding_all decide)

theorem setNelec_nelec {n : ℕ} (ctx : HFContext n) (m : ℕ) :
    (setNelec ctx m).nelec = m :=
  rfl

theorem setNelec_maxiter {n : ℕ} (ctx : HFContext n) (m : ℕ) :
    (setNelec ctx m).maxiter = ctx.maxiter :=
  rfl

theorem setNelec_tol {n : ℕ} (ctx : HFContext n) (m : ℕ) :
    (setNelec ctx m).tol = ctx.tol :=
  rfl

theorem setNelec_X {n : ℕ} (ctx : HFContext n) (m : ℕ) :
    (setNelec ctx m).X = ctx.X :=
  rfl

theorem setNelec_Hcore {n : ℕ} (ctx : HFContext n) (m : ℕ) :
    (setNelec ctx m).Hcore = ctx.Hcore :=
  rfl

theorem Fock_setNelec {n : ℕ} (ctx : HFContext n) (m : ℕ)
    (D : Matrix (Fin n) (Fin n) ℚ) : Fock (setNelec ctx m) D = Fock ctx D :=
  rfl

theorem eElec_setNelec {n : ℕ} (ctx : HFContext n) (m : ℕ)
    (D : Matrix (Fin n) (Fin n) ℚ) : eElec (setNelec ctx m) D = eElec ctx D :=
  rfl

theorem scfStep_setNelec {n : ℕ} (ctx : HFContext n) (m : ℕ)
    (eigh : EighFn n) (st : SCFState n) (h : m / 2 = ctx.nelec / 2) :
    scfStep (setNelec ctx m) eigh st = scfStep ctx eigh st := by
  simp only [scfStep, Fock_setNelec, eElec_setNelec, setNelec_X,
    setNelec_nelec, h]

theorem initState_setNelec {n : ℕ} (ctx : HFContext n) (m : ℕ)
    (eigh : EighFn n) (h : m / 2 = ctx.nelec / 2) :
    initState (setNelec ctx m) eigh = initState ctx eigh := by
  simp only [initState, setNelec_X, setNelec_Hcore, setNelec_nelec, h]

theorem scfLoop_setNelec {n : ℕ} (ctx : HFContext n) (m : ℕ)
    (eigh : EighFn n) (h : m / 2 = ctx.nelec / 2) :
    ∀ (fuel : ℕ) (st : SCFState n),
      scfLoop (setNelec ctx m) eigh fuel st = scfLoop ctx eigh fuel st := by
  intro fuel
  induction fuel with
  | zero =>
    intro st
    rfl
  | succ f ih =>
    intro st
    simp only [scfLoop, setNelec_maxiter, setNelec_tol,
      scfStep_setNelec ctx m eigh st h]
    rw [ih]

theorem scfRun_setNelec {n : ℕ} (ctx : HFContext n) (m : ℕ)
    (eigh : EighFn n) (h : m / 2 = ctx.nelec / 2) :
    scfRun (setNelec ctx m) eigh = scfRun ctx eigh := by
  unfold scfRun
  rw [initState_setNelec ctx m eigh h, setNelec_maxiter,
    scfLoop_setNelec ctx m eigh h]

/-- C5 counterexample: with the odd electron count 3 the solver does not
fail before iterating - it runs at least one full SCF pass and produces
exactly the state it produces for the even count 2, because the occupation
loop floor-divides nelec // 2 and no odd-electron check exists anywhere in
the code. -/
theorem odd_nelec_no_error_cex :
    scfRun ctxOsc3 oscEigh = scfRun ctxOscA oscEigh ∧
      1 ≤ (scfRun ctxOsc3 oscEigh).iterstep := by
  constructor <;> with_unfolding_all decide

/-- C5 (amended): for every odd electron count 2k+1 the solver raises no
error and executes normally; the occupation loop floor-divides nelec // 2,
so the run is identical to the run with the even electron count 2k. -/
theorem odd_nelec_runs_as_even :
    ∀ (n : ℕ) (ctx : HFContext n) (eigh : EighFn n) (k : ℕ),
      ctx.nelec = 2 * k + 1 →
      scfRun ctx eigh = scfRun (setNelec ctx (2 * k)) eigh := by
  intro n ctx eigh k hk
  refine (scfRun_setNelec ctx (2 * k) eigh ?_).symm
  omega

/-- C5 witness: the amended behaviour at the concrete context with electron
count 3, which runs exactly as the same context with electron count 2. -/
theorem odd_nelec_runs_as_even_witness :
    scfRun ctxOsc3 oscEigh = scfRun (setNelec ctxOsc3 2) oscEigh :=
  odd_nelec_runs_as_even 1 ctxOsc3 oscEigh 1 (by with_unfolding_all decide)

theorem eElecTrace_eq_eElecSum {n : ℕ} (Hc J K D : Matrix (Fin n) (Fin n) ℚ)
    (hD : D.IsSymm) : eElecTrace Hc J K D = eElecSum Hc J K D := by
  have hsym : ∀ i j, D j i = D i j := fun i j => congrFun (congrFun hD i) j
  unfold eElecTrace eElecSum
  simp only [Matrix.trace, Matrix.diag, Matrix.mul_apply, Matrix.add_apply,
    Matrix.sub_apply, Matrix.smul_apply, smul_eq_mul]
  refine Finset.sum_congr rfl fun i _ => Finset.sum_congr rfl fun j _ => ?_
  rw [hsym i j]
  ring

/-- C8 counterexample: the claim that the two energy formulas appearing
across revisions differ for some symmetric D and symmetric H, J, K is
false: no such matrices exist, because for every symmetric density the
trace form trace((2H + 2J - K) D) and the surfaced elementwise form
sum of D * (H + F) with F = H + 2J - K compute the same value. -/
theorem energy_formulas_not_different_cex :
    ¬ ∃ (n : ℕ) (D Hc J K : Matrix (Fin n) (Fin n) ℚ),
        D.IsSymm ∧ Hc.IsSymm ∧ J.IsSymm ∧ K.IsSymm ∧
          eElecTrace Hc J K D ≠ eElecSum Hc J K D := by
  rintro ⟨n, D, Hc, J, K, hD, -, -, -, hne⟩
  exact hne (eElecTrace_eq_eElecSum Hc J K D hD)

/-- C8 (amended): the two energy formulas appearing across source
revisions - trace((2H + 2J - K) D) and the surfaced
sum of D * (H + F) with F = H + 2J - K - are mathematically the same
expression on every symmetric density matrix D (for any H, J, K): they
always yield equal values, so the revisions differ in spelling, not in
mathematics. -/
theorem energy_formulas_agree :
    ∀ (n : ℕ) (D Hc J K : Matrix (Fin n) (Fin n) ℚ),
      D.IsSymm → eElecTrace Hc J K D = eElecSum Hc J K D := by
  intro n D Hc J K hD
  exact eElecTrace_eq_eElecSum Hc J K D hD

/-- C8 witness: the agreement of the two energy formulas at the concrete
symmetric one-dimensional input D = Hc = J = K = 1. -/
theorem energy_formulas_agree_witness :
    eElecTrace (1 : Matrix (Fin 1) (Fin 1) ℚ) 1 1 1 =
      eElecSum (1 : Matrix (Fin 1) (Fin 1) ℚ) 1 1 1 :=
  energy_formulas_agree 1 1 1 1 1 (by with_unfolding_all decide)

end HF
